import Mathlib

set_option maxRecDepth 8192

/-!
Verification development for the `pls` command-line assistant (src/pls.py).

Strings are modelled as `List Char`.  The Python string primitives used by
the source (`str.strip`, `str.splitlines`, `"\n".join`, `str.startswith`,
substring containment, `str.lower`, `list.remove`) are embedded below with
CPython semantics on the modelled character set: `str.strip` removes the
characters Python classifies as whitespace, and `str.splitlines` splits on
the CPython line-boundary set, treating a CR LF pair as one boundary.
-/

namespace Pls

/-- Characters stripped by Python's `str.strip()` (characters whose
`str.isspace()` is true). -/
def wsChars : List Char :=
  [' ', '\t', '\n', '\r', '\x0b', '\x0c', '\x1c', '\x1d', '\x1e', '\x1f',
   '\x85', '\xa0', '\u1680', '\u2000', '\u2001', '\u2002', '\u2003', '\u2004',
   '\u2005', '\u2006', '\u2007', '\u2008', '\u2009', '\u200a', '\u2028',
   '\u2029', '\u202f', '\u205f', '\u3000']

def isPySpace (c : Char) : Bool := decide (c ∈ wsChars)

/-- Line boundaries of Python's `str.splitlines()` (besides the CR LF pair,
which is handled separately). -/
def breakChars : List Char :=
  ['\n', '\r', '\x0b', '\x0c', '\x1c', '\x1d', '\x1e', '\x85', '\u2028', '\u2029']

def isLineBreak (c : Char) : Bool := decide (c ∈ breakChars)

/-- Python `str.lstrip()`. -/
def lstrip (s : List Char) : List Char := s.dropWhile isPySpace

/-- Python `str.rstrip()`. -/
def rstrip (s : List Char) : List Char := ((s.reverse).dropWhile isPySpace).reverse

/-- Python `str.strip()`. -/
def pyStrip (s : List Char) : List Char := rstrip (lstrip s)

/-- Helper for `splitRaw`: prepend a character to the first segment. -/
def consHead (c : Char) : List (List Char) → List (List Char)
  | [] => [[c]]
  | l :: ls => (c :: l) :: ls

/-- Split at every line boundary, keeping the (possibly empty) segment after
the last boundary.  `splitRaw s` is never `[]`. -/
def splitRaw : List Char → List (List Char)
  | [] => [[]]
  | [c] => if isLineBreak c then [[], []] else [[c]]
  | c :: d :: rest =>
    if c = '\r' ∧ d = '\n' then [] :: splitRaw rest
    else if isLineBreak c then [] :: splitRaw (d :: rest)
    else consHead c (splitRaw (d :: rest))

/-- Python `str.splitlines()`: like `splitRaw`, except that a boundary at the
very end of the string does not open a final empty line (and `""` gives `[]`). -/
def splitlines (s : List Char) : List (List Char) :=
  if (splitRaw s).getLast? = some [] then (splitRaw s).dropLast else splitRaw s

/-- Python `"\n".join(...)`. -/
def joinNL : List (List Char) → List Char
  | [] => []
  | [l] => l
  | l :: ls => l ++ '\n' :: joinNL ls

/-- The backtick character. -/
def bt : Char := Char.ofNat 96

/-- A fenced code-block delimiter. -/
def fence : List Char := [bt, bt, bt]

/-- Python substring containment (`pat in s`). -/
def hasSub (pat : List Char) : List Char → Bool
  | [] => pat.isEmpty
  | c :: rest => pat.isPrefixOf (c :: rest) || hasSub pat rest

/-- The line filter of `sanitize_command` step 1: keep a line iff its stripped
form does not start with a fence delimiter. -/
def keepLine (ln : List Char) : Bool := decide (¬ fence <+: pyStrip ln)

/-- Step 1 of `sanitize_command` (src/pls.py lines 61-67): if the text contains
a fence delimiter, drop every line whose stripped form starts with one, re-join
with newlines and re-strip. -/
def stepFence (raw : List Char) : List Char :=
  if hasSub fence raw then
    pyStrip (joinNL ((splitlines raw).filter keepLine))
  else raw

/-- The guard of `sanitize_command` step 2 (src/pls.py line 70): the text
starts with a backtick, ends with a backtick, and has length greater than 2. -/
def Wrapped (l : List Char) : Prop :=
  l.head? = some bt ∧ l.getLast? = some bt ∧ 2 < l.length

instance (l : List Char) : Decidable (Wrapped l) :=
  inferInstanceAs (Decidable (l.head? = some bt ∧ l.getLast? = some bt ∧ 2 < l.length))

/-- Python `raw[1:-1]`. -/
def middle (l : List Char) : List Char := (l.drop 1).dropLast

/-- Step 2 of `sanitize_command` (src/pls.py lines 70-71): strip one outer pair
of inline backticks when the whole text is wrapped in them. -/
def stepTick (raw : List Char) : List Char :=
  if Wrapped raw then pyStrip (middle raw) else raw

/-- `sanitize_command` (src/pls.py lines 58-74): strip, remove fence-delimiter
lines, remove one outer inline-backtick pair. -/
def sanitize_command (raw : List Char) : List Char :=
  stepTick (stepFence (pyStrip raw))

/-!
## Health probe (`is_ollama_running`, src/pls.py lines 26-31)

The probe performs one HTTP GET with a 0.5s timeout.  Its possible network
outcomes are a completed response (with some HTTP status code) — `requests.get`
does not raise on non-2xx statuses — or the two exception classes named in the
source's `except` clause: `ConnectionError` (which also covers `ConnectTimeout`)
and `ReadTimeout`.
-/

/-- Outcome of the single `requests.get(OLLAMA_API_URL, timeout=0.5)` call. -/
inductive NetOutcome
  | success (status : Nat)
  | connectionError
  | readTimeout
deriving DecidableEq

/-- `is_ollama_running` (src/pls.py lines 26-31): `True` on any completed
response, `False` when the connection fails or times out.  It is a total
function of the network outcome: no outcome escapes as an exception. -/
def is_ollama_running : NetOutcome → Bool
  | .success _ => true
  | .connectionError => false
  | .readTimeout => false

/-!
## Startup poll loop (`start_ollama`, src/pls.py lines 33-48)

After `Popen(["ollama", "serve"])` the code runs
`retries = 0; while not is_ollama_running(): sleep(0.5); retries += 1;
if retries > 20: exit(1)`.
`h k` is the result of the (k+1)-st health probe inside the loop.
-/

/-- Result of the poll loop: `ok probes` when a probe succeeded (`probes`
probes were made in the loop), `failed probes` when the retry counter
exceeded 20 and the process exits with status 1.  Each failed probe is
followed by one 0.5-second sleep. -/
inductive StartRes
  | ok (probes : Nat)
  | failed (probes : Nat)
deriving DecidableEq

/-- One step of the loop: probe index `i` (0-based); after a failed probe the
counter becomes `i + 1` and the loop aborts once `i + 1 > 20`.  The fuel is
only a termination device; `startPoll h 0 21` never exhausts it. -/
def startPoll (h : Nat → Bool) : Nat → Nat → StartRes
  | i, 0 => .failed i
  | i, fuel + 1 =>
    if h i then .ok (i + 1)
    else if i + 1 > 20 then .failed (i + 1)
    else startPoll h (i + 1) fuel

/-- The poll loop of `start_ollama`, started with `retries = 0`. -/
def start_ollama_poll (h : Nat → Bool) : StartRes := startPoll h 0 21

/-!
## Session model (`main`, `signal_handler`, src/pls.py lines 76-176)

A single invocation, modelled as a function of an adversarial environment:
the results of the two initial health probes, the in-loop probe results, an
optional interruption point, and whether the inference call raises.

The model mirrors the source faithfully:
* the global `server_process` starts as `None` and is assigned only when
  `start_ollama()` *returns* (line 109) — during the poll wait the spawned
  process is not yet recorded;
* `signal_handler` (lines 79-83) stops the server only if `server_process`
  is set, then calls `sys.exit(0)`;
* `sys.exit` raises `SystemExit`, which `except Exception` (line 167) does
  not catch, so the `finally` block (lines 170-173) still runs and performs
  its own `stop_ollama` when `not was_already_running and server_process`;
* `cleanup_zombies` (lines 22-24) runs only when the first probe fails.

`finalHealthy` is the ghost health state of the real server: it is made
false by `cleanup_zombies` (pkill) and by `stop_ollama`, true by a launch
that reached a successful probe, and is otherwise untouched.
-/

/-- Where the (at most one) SIGINT of the run arrives, if anywhere:
before the initial probes, after the probes but before the start decision,
during the sleep following in-loop probe `k`, or after `start_ollama`
returned (covering prompt building, the inference call and display). -/
inductive IPt
  | beforeProbes
  | beforeStart
  | duringPoll (k : Nat)
  | duringInference
deriving DecidableEq

/-- Environment of one invocation. -/
structure Env where
  healthy0 : Bool
  probe1 : Bool
  probe2 : Bool
  pollH : Nat → Bool
  intr : Option IPt
  inferOk : Bool

/-- Observable effects of one invocation.  `stops` counts `stop_ollama`
invocations on the process this invocation spawned; `started` records that
`Popen(["ollama", "serve"])` ran; `polls` counts in-loop health probes. -/
structure Run where
  cleanupCalled : Bool
  started : Bool
  wasAlreadyRunning : Bool
  stops : Nat
  polls : Nat
  inferenceCalled : Bool
  errorReported : Bool
  exitCode : Nat
  finalHealthy : Bool

/-- The sleep after in-loop probe `k` is reached iff probes `0..k` all failed
and the retry counter had not yet aborted the loop (`k ≤ 20`). -/
def pollInterrupted (h : Nat → Bool) : Option IPt → Option Nat
  | some (.duringPoll k) =>
    if ((List.range (k + 1)).all fun j => !(h j)) && decide (k ≤ 20) then some k
    else none
  | _ => none

/-- One whole invocation of `main` (src/pls.py lines 85-176). -/
def runMain (e : Env) : Run :=
  if e.intr = some .beforeProbes then
    -- handler: `server_process` is None, no stop, exit(0)
    ⟨false, false, false, 0, 0, false, false, 0, e.healthy0⟩
  else
    let cleanup := !e.probe1
    let h1 := if cleanup then false else e.healthy0
    let was := e.probe2
    if e.intr = some .beforeStart then
      ⟨cleanup, false, was, 0, 0, false, false, 0, h1⟩
    else if was then
      -- already running: no start; inference runs; finally is a no-op
      -- (an interrupt here finds `server_process = None` and just exits)
      if e.intr = some .duringInference then
        ⟨cleanup, false, true, 0, 0, true, false, 0, h1⟩
      else
        ⟨cleanup, false, true, 0, 0, true, !e.inferOk, 0, h1⟩
    else
      -- start_ollama: Popen runs, then the poll loop
      match pollInterrupted e.pollH e.intr with
      | some k =>
        -- SIGINT during the poll wait: handler sees `server_process = None`,
        -- performs no stop, exits; `finally` also sees None: zero stops.
        ⟨cleanup, true, false, 0, k + 1, false, false, 0, false⟩
      | none =>
        match start_ollama_poll e.pollH with
        | .failed c =>
          -- sys.exit(1) inside start_ollama: SystemExit skips the inference
          -- call; `finally` sees `server_process = None`: zero stops.
          ⟨cleanup, true, false, 0, c, false, false, 1, false⟩
        | .ok c =>
          if e.intr = some .duringInference then
            -- handler stops once and exits; SystemExit reaches `finally`,
            -- which stops the same handle a second time.
            ⟨cleanup, true, false, 2, c, true, false, 0, false⟩
          else
            -- normal completion or caught inference error: one stop.
            ⟨cleanup, true, false, 1, c, true, !e.inferOk, 0, false⟩

/-!
## Confirmation and command-mode outcome (src/pls.py lines 152-165)
-/

/-- Python `str.lower()` on the modelled (ASCII command/confirmation)
character set. -/
def pyLower (s : List Char) : List Char := s.map Char.toLower

/-- The affirmative answers of the confirmation prompt:
`confirm in ['', 'y', 'yes']`. -/
def yesAnswers : List (List Char) := [[], ['y'], ['y', 'e', 's']]

/-- The confirmation test (src/pls.py lines 161-162) applied to the raw
prompt input: lower-case it, then test membership in `['', 'y', 'yes']`. -/
def confirmAccepts (s : List Char) : Bool := yesAnswers.contains (pyLower s)

/-- Outcome of the command-mode tail of `main`. -/
inductive CmdOutcome
  | emptyError
  | execute (cmd : List Char)
  | aborted
deriving DecidableEq

/-- Command-mode tail of `main` (src/pls.py lines 152-165): sanitize the
model output; an empty result is reported and nothing runs; otherwise the
command runs exactly when the confirmation input is affirmative. -/
def commandStage (content confirm : List Char) : CmdOutcome :=
  if sanitize_command content = [] then .emptyError
  else if confirmAccepts confirm then .execute (sanitize_command content)
  else .aborted

/-!
## Argument handling (src/pls.py lines 90-99)
-/

/-- Mode detection: `if "-a" in sys.argv: ask_mode = True; sys.argv.remove("-a")`.
`argv` is the full `sys.argv`, program name included; Python's `list.remove`
drops exactly the first occurrence. -/
def parse_args (argv : List String) : Bool × List String :=
  if ("-a") ∈ argv then (true, argv.erase ("-a")) else (false, argv)

/-- `query = " ".join(sys.argv[1:])` (src/pls.py line 99). -/
def build_query (argv : List String) : String :=
  String.intercalate (" ") (argv.drop 1)

/-!
## Lemma kit: stripping
-/

theorem dropWhile_cons_false {α} (p : α → Bool) :
    ∀ (l : List α) (c : α) (t : List α), l.dropWhile p = c :: t → p c = false := by
  intro l
  induction l with
  | nil => intro c t h; simp [List.dropWhile] at h
  | cons a l ih =>
    intro c t h
    rw [List.dropWhile_cons] at h
    by_cases hp : p a = true
    · rw [if_pos hp] at h; exact ih c t h
    · rw [if_neg hp] at h
      injection h with h1 _
      subst h1
      exact Bool.eq_false_iff.mpr hp

theorem dropWhile_fix_head {α} (p : α → Bool) (a : α) (u : List α)
    (h : (a :: u).dropWhile p = a :: u) : p a = false := by
  rw [List.dropWhile_cons] at h
  by_cases hp : p a = true
  · rw [if_pos hp] at h
    have hlen := congrArg List.length h
    have hle : (u.dropWhile p).length ≤ u.length := (List.dropWhile_suffix p).length_le
    simp at hlen
    omega
  · exact Bool.eq_false_iff.mpr hp

theorem dropWhile_idem {α} (p : α → Bool) (l : List α) :
    (l.dropWhile p).dropWhile p = l.dropWhile p := by
  cases h : l.dropWhile p with
  | nil => rfl
  | cons c t =>
    have hc := dropWhile_cons_false p l c t h
    rw [List.dropWhile_cons, if_neg (by simp [hc])]

theorem lstrip_idem (s : List Char) : lstrip (lstrip s) = lstrip s :=
  dropWhile_idem isPySpace s

theorem rstrip_idem (s : List Char) : rstrip (rstrip s) = rstrip s := by
  unfold rstrip
  rw [List.reverse_reverse, dropWhile_idem]

theorem lstrip_suffix (s : List Char) : lstrip s <:+ s :=
  List.dropWhile_suffix _

theorem rstrip_pref (s : List Char) : rstrip s <+: s := by
  have h : s.reverse.dropWhile isPySpace <:+ s.reverse := List.dropWhile_suffix _
  have h2 := List.reverse_prefix.mpr h
  rwa [List.reverse_reverse] at h2

theorem pyStrip_inf (s : List Char) : pyStrip s <:+: s :=
  ((rstrip_pref (lstrip s)).isInfix).trans (lstrip_suffix s).isInfix

theorem lstrip_fix_rstrip (t : List Char) (h : lstrip t = t) :
    lstrip (rstrip t) = rstrip t := by
  cases hr : rstrip t with
  | nil => rfl
  | cons c u =>
    have hpref : rstrip t <+: t := rstrip_pref t
    rw [hr] at hpref
    obtain ⟨r, hr2⟩ := hpref
    have hc : isPySpace c = false := by
      have h3 : t.dropWhile isPySpace = t := h
      rw [← hr2] at h3
      exact dropWhile_fix_head _ _ _ h3
    simp [lstrip, List.dropWhile_cons, hc]

theorem pyStrip_idem (s : List Char) : pyStrip (pyStrip s) = pyStrip s := by
  show pyStrip (rstrip (lstrip s)) = rstrip (lstrip s)
  unfold pyStrip
  rw [lstrip_fix_rstrip (lstrip s) (lstrip_idem s), rstrip_idem]

theorem stepFence_strip (r : List Char) (h : pyStrip r = r) :
    pyStrip (stepFence r) = stepFence r := by
  unfold stepFence
  split
  · exact pyStrip_idem _
  · exact h

theorem stepTick_strip (r : List Char) (h : pyStrip r = r) :
    pyStrip (stepTick r) = stepTick r := by
  unfold stepTick
  split
  · exact pyStrip_idem _
  · exact h

theorem sanitize_strip (x : List Char) :
    pyStrip (sanitize_command x) = sanitize_command x :=
  stepTick_strip _ (stepFence_strip _ (pyStrip_idem x))

theorem pyStrip_fix_parts (s : List Char) (h : pyStrip s = s) :
    lstrip s = s ∧ rstrip s = s := by
  have hlen1 : (lstrip s).length ≤ s.length := (List.dropWhile_suffix _).length_le
  have hpre : rstrip (lstrip s) <+: lstrip s := rstrip_pref _
  have hlen2 : (rstrip (lstrip s)).length ≤ (lstrip s).length := hpre.length_le
  have hlen3 : (rstrip (lstrip s)).length = s.length := congrArg List.length h
  have hl : lstrip s = s := (lstrip_suffix s).eq_of_length (by omega)
  refine ⟨hl, ?_⟩
  calc rstrip s = rstrip (lstrip s) := by rw [hl]
    _ = s := h

theorem rstrip_fix_last (t : List Char) (h : rstrip t = t) (c : Char)
    (hc : t.getLast? = some c) : isPySpace c = false := by
  have h2 : t.reverse.dropWhile isPySpace = t.reverse := by
    have h3 := congrArg List.reverse h
    rwa [rstrip, List.reverse_reverse] at h3
  have h3 : t.reverse.head? = some c := by rw [List.head?_reverse]; exact hc
  cases hrev : t.reverse with
  | nil => rw [hrev] at h3; simp at h3
  | cons a u =>
    rw [hrev] at h3 h2
    have ha : a = c := by simpa using h3
    subst ha
    exact dropWhile_fix_head _ _ _ h2

theorem stripped_last_not_ws (s : List Char) (h : pyStrip s = s) (c : Char)
    (hc : s.getLast? = some c) : isPySpace c = false :=
  rstrip_fix_last s (pyStrip_fix_parts s h).2 c hc

theorem stripped_head_not_ws (s : List Char) (h : pyStrip s = s) (c : Char)
    (hc : s.head? = some c) : isPySpace c = false := by
  have hl := (pyStrip_fix_parts s h).1
  cases s with
  | nil => simp at hc
  | cons a u =>
    have ha : a = c := by simpa using hc
    subst ha
    exact dropWhile_fix_head _ _ _ hl

theorem all_ws_pyStrip_nil (s : List Char) (h : ∀ c ∈ s, isPySpace c = true) :
    pyStrip s = [] := by
  have hl : lstrip s = [] := by
    rw [lstrip, List.dropWhile_eq_nil_iff]
    intro a ha
    exact h a ha
  rw [pyStrip, hl]
  rfl

theorem break_ws (c : Char) (h : isLineBreak c = true) : isPySpace c = true := by
  have hm : c ∈ breakChars := by simpa [isLineBreak] using h
  fin_cases hm <;> decide

/-!
## Lemma kit: line splitting and joining
-/

theorem splitRaw_ne_nil (s : List Char) : splitRaw s ≠ [] := by
  rcases s with _ | ⟨c, _ | ⟨d, rest⟩⟩
  · simp [splitRaw]
  · simp only [splitRaw]; split <;> simp
  · simp only [splitRaw]; split
    · simp
    · split
      · simp
      · cases splitRaw (d :: rest) <;> simp [consHead]

theorem mem_splitRaw_no_break (s : List Char) :
    ∀ ln ∈ splitRaw s, ∀ c ∈ ln, isLineBreak c = false := by
  induction s using splitRaw.induct with
  | case1 =>
    intro ln hln c hc
    simp only [splitRaw, List.mem_singleton] at hln
    subst hln
    simp at hc
  | case2 c hc =>
    intro ln hln d hd
    simp [splitRaw, if_pos hc] at hln
    subst hln
    simp at hd
  | case3 c hc =>
    intro ln hln d hd
    simp only [splitRaw, if_neg hc] at hln
    simp only [List.mem_singleton] at hln
    subst hln
    simp only [List.mem_singleton] at hd
    subst hd
    exact Bool.eq_false_iff.mpr hc
  | case4 c d rest hcd ih =>
    intro ln hln e he
    simp only [splitRaw, if_pos hcd] at hln
    rcases List.mem_cons.mp hln with rfl | hmem
    · simp at he
    · exact ih ln hmem e he
  | case5 c d rest hcd hc ih =>
    intro ln hln e he
    simp only [splitRaw, if_neg hcd, if_pos hc] at hln
    rcases List.mem_cons.mp hln with rfl | hmem
    · simp at he
    · exact ih ln hmem e he
  | case6 c d rest hcd hc ih =>
    intro ln hln e he
    simp only [splitRaw, if_neg hcd, if_neg hc] at hln
    cases hr : splitRaw (d :: rest) with
    | nil => exact absurd hr (splitRaw_ne_nil _)
    | cons l0 ls0 =>
      rw [hr] at hln
      simp only [consHead] at hln
      rcases List.mem_cons.mp hln with rfl | hmem
      · rcases List.mem_cons.mp he with rfl | hel
        · exact Bool.eq_false_iff.mpr hc
        · exact ih l0 (by rw [hr]; exact List.mem_cons_self _ _) e hel
      · exact ih ln (by rw [hr]; exact List.mem_cons_of_mem _ hmem) e he

theorem splitRaw_head_pref (s : List Char) :
    ∀ l ls, splitRaw s = l :: ls → l <+: s := by
  induction s using splitRaw.induct with
  | case1 =>
    intro l ls h
    simp only [splitRaw] at h
    injection h with h1 _
    subst h1
    exact List.nil_prefix
  | case2 c hc =>
    intro l ls h
    simp only [splitRaw, if_pos hc] at h
    injection h with h1 _
    subst h1
    exact List.nil_prefix
  | case3 c hc =>
    intro l ls h
    simp only [splitRaw, if_neg hc] at h
    injection h with h1 _
    subst h1
    exact List.prefix_refl _
  | case4 c d rest hcd ih =>
    intro l ls h
    simp only [splitRaw, if_pos hcd] at h
    injection h with h1 _
    subst h1
    exact List.nil_prefix
  | case5 c d rest hcd hc ih =>
    intro l ls h
    simp only [splitRaw, if_neg hcd, if_pos hc] at h
    injection h with h1 _
    subst h1
    exact List.nil_prefix
  | case6 c d rest hcd hc ih =>
    intro l ls h
    simp only [splitRaw, if_neg hcd, if_neg hc] at h
    cases hr : splitRaw (d :: rest) with
    | nil => exact absurd hr (splitRaw_ne_nil _)
    | cons l0 ls0 =>
      rw [hr] at h
      simp only [consHead] at h
      injection h with h1 _
      subst h1
      obtain ⟨t, ht⟩ := ih l0 ls0 hr
      exact ⟨t, by rw [List.cons_append, ht]⟩

theorem mem_splitRaw_inf (s : List Char) : ∀ ln ∈ splitRaw s, ln <:+: s := by
  induction s using splitRaw.induct with
  | case1 =>
    intro ln hln
    simp only [splitRaw, List.mem_singleton] at hln
    subst hln
    exact List.infix_rfl
  | case2 c hc =>
    intro ln hln
    simp [splitRaw, if_pos hc] at hln
    subst hln
    exact List.nil_infix
  | case3 c hc =>
    intro ln hln
    simp only [splitRaw, if_neg hc, List.mem_singleton] at hln
    subst hln
    exact List.infix_rfl
  | case4 c d rest hcd ih =>
    intro ln hln
    rcases List.mem_cons.mp (by simpa only [splitRaw, if_pos hcd] using hln) with rfl | hmem
    · exact List.nil_infix
    · exact (ih ln hmem).trans
        (((List.suffix_cons d rest).trans (List.suffix_cons c (d :: rest))).isInfix)
  | case5 c d rest hcd hc ih =>
    intro ln hln
    rcases List.mem_cons.mp
        (by simpa only [splitRaw, if_neg hcd, if_pos hc] using hln) with rfl | hmem
    · exact List.nil_infix
    · exact (ih ln hmem).trans ((List.suffix_cons c (d :: rest)).isInfix)
  | case6 c d rest hcd hc ih =>
    intro ln hln
    simp only [splitRaw, if_neg hcd, if_neg hc] at hln
    cases hr : splitRaw (d :: rest) with
    | nil => exact absurd hr (splitRaw_ne_nil _)
    | cons l0 ls0 =>
      rw [hr] at hln
      simp only [consHead] at hln
      rcases List.mem_cons.mp hln with rfl | hmem
      · obtain ⟨t, ht⟩ := splitRaw_head_pref (d :: rest) l0 ls0 hr
        exact ⟨[], t, by rw [List.nil_append, List.cons_append, ht]⟩
      · exact (ih ln (by rw [hr]; exact List.mem_cons_of_mem _ hmem)).trans
          ((List.suffix_cons c (d :: rest)).isInfix)

theorem joinNL_cons2 (l l2 : List Char) (ls : List (List Char)) :
    joinNL (l :: l2 :: ls) = l ++ '\n' :: joinNL (l2 :: ls) := rfl

theorem joinNL_consHead (c : Char) (r : List (List Char)) (h : r ≠ []) :
    joinNL (consHead c r) = c :: joinNL r := by
  cases r with
  | nil => exact absurd rfl h
  | cons l ls =>
    cases ls with
    | nil => rfl
    | cons l2 ls2 => simp [consHead, joinNL_cons2]

theorem mem_joinNL (ls : List (List Char)) (c : Char) (h : c ∈ joinNL ls) :
    (∃ l ∈ ls, c ∈ l) ∨ c = '\n' := by
  induction ls with
  | nil => simp [joinNL] at h
  | cons l ls ih =>
    cases ls with
    | nil => exact Or.inl ⟨l, by simp, by simpa [joinNL] using h⟩
    | cons l2 ls2 =>
      rw [joinNL_cons2] at h
      rcases List.mem_append.mp h with h1 | h2
      · exact Or.inl ⟨l, by simp, h1⟩
      · rcases List.mem_cons.mp h2 with rfl | h3
        · exact Or.inr rfl
        · rcases ih h3 with ⟨l4, hl4, hc4⟩ | rfl
          · exact Or.inl ⟨l4, List.mem_cons_of_mem _ hl4, hc4⟩
          · exact Or.inr rfl

theorem joinNL_splitRaw (s : List Char)
    (h : ∀ c ∈ s, isLineBreak c = true → c = '\n') :
    joinNL (splitRaw s) = s := by
  revert h
  induction s using splitRaw.induct with
  | case1 => intro h; rfl
  | case2 c hc =>
    intro h
    have hcn : c = '\n' := h c (by simp) hc
    subst hcn
    simp only [splitRaw, if_pos hc]
    rfl
  | case3 c hc =>
    intro h
    simp only [splitRaw, if_neg hc]
    rfl
  | case4 c d rest hcd ih =>
    intro h
    obtain ⟨rfl, rfl⟩ := hcd
    have habs : ('\r' : Char) = '\n' := h '\r' (by simp) (by decide)
    exact absurd habs (by decide)
  | case5 c d rest hcd hc ih =>
    intro h
    have hcn : c = '\n' := h c (by simp) hc
    subst hcn
    have ihr := ih (fun e he hb => h e (List.mem_cons_of_mem _ he) hb)
    simp only [splitRaw, if_neg hcd, if_pos hc]
    cases hq : splitRaw (d :: rest) with
    | nil => exact absurd hq (splitRaw_ne_nil _)
    | cons l0 ls0 =>
      rw [hq] at ihr
      rw [joinNL_cons2, List.nil_append, ihr]
  | case6 c d rest hcd hc ih =>
    intro h
    have ihr := ih (fun e he hb => h e (List.mem_cons_of_mem _ he) hb)
    simp only [splitRaw, if_neg hcd, if_neg hc]
    rw [joinNL_consHead c _ (splitRaw_ne_nil _), ihr]

theorem getLast?_cons_of_ne {α} (a : α) (l : List α) (h : l ≠ []) :
    (a :: l).getLast? = l.getLast? := by
  cases l with
  | nil => exact absurd rfl h
  | cons b t => exact List.getLast?_cons_cons

theorem splitRaw_getLast_ne (s : List Char) :
    ∀ c, s.getLast? = some c → isLineBreak c = false →
      (splitRaw s).getLast? ≠ some [] := by
  induction s using splitRaw.induct with
  | case1 => intro c hc _; simp at hc
  | case2 c0 hc0 =>
    intro c hc hb
    have : c0 = c := by simpa using hc
    subst this
    exact absurd hc0 (by simp [hb])
  | case3 c0 hc0 =>
    intro c hc hb
    simp only [splitRaw, if_neg hc0]
    simp
  | case4 c0 d rest hcd ih =>
    intro c hc hb
    obtain ⟨rfl, rfl⟩ := hcd
    simp only [splitRaw, and_self, eq_self_iff_true, if_true]
    cases rest with
    | nil =>
      have : ('\n' : Char) = c := by simpa using hc
      subst this
      exact absurd hb (by decide)
    | cons r0 rest2 =>
      have hc2 : (r0 :: rest2).getLast? = some c := by
        rw [← hc]
        exact (List.getLast?_cons_cons).symm.trans (List.getLast?_cons_cons).symm
      rw [getLast?_cons_of_ne _ _ (splitRaw_ne_nil _)]
      exact ih c hc2 hb
  | case5 c0 d rest hcd hc0 ih =>
    intro c hc hb
    simp only [splitRaw, if_neg hcd, if_pos hc0]
    have hc2 : (d :: rest).getLast? = some c := by
      rw [← hc]; exact (List.getLast?_cons_cons).symm
    rw [getLast?_cons_of_ne _ _ (splitRaw_ne_nil _)]
    exact ih c hc2 hb
  | case6 c0 d rest hcd hc0 ih =>
    intro c hc hb
    simp only [splitRaw, if_neg hcd, if_neg hc0]
    cases hr : splitRaw (d :: rest) with
    | nil => exact absurd hr (splitRaw_ne_nil _)
    | cons l0 ls0 =>
      simp only [consHead]
      cases ls0 with
      | nil => simp
      | cons l1 ls1 =>
        rw [getLast?_cons_of_ne _ _ (by simp)]
        have hc2 : (d :: rest).getLast? = some c := by
          rw [← hc]; exact (List.getLast?_cons_cons).symm
        have := ih c hc2 hb
        rw [hr] at this
        rwa [getLast?_cons_of_ne _ _ (by simp)] at this

theorem splitlines_eq_splitRaw (s : List Char)
    (h : (splitRaw s).getLast? ≠ some []) : splitlines s = splitRaw s := by
  unfold splitlines
  rw [if_neg h]

theorem mem_splitlines_raw (s ln : List Char) (h : ln ∈ splitlines s) :
    ln ∈ splitRaw s := by
  unfold splitlines at h
  split at h
  · exact (List.dropLast_sublist _).subset h
  · exact h

theorem splitRaw_head_nonempty (a : Char) (t : List Char)
    (ha : isLineBreak a = false) :
    ∃ l0 ls, splitRaw (a :: t) = (a :: l0) :: ls := by
  cases t with
  | nil =>
    refine ⟨[], [], ?_⟩
    simp only [splitRaw]
    rw [if_neg (by simp [ha])]
  | cons d rest =>
    have h1 : ¬(a = '\r' ∧ d = '\n') := by
      rintro ⟨rfl, -⟩
      exact absurd ha (by decide)
    simp only [splitRaw, if_neg h1, if_neg (by simp [ha] : ¬ isLineBreak a = true)]
    cases hr : splitRaw (d :: rest) with
    | nil => exact absurd hr (splitRaw_ne_nil _)
    | cons l0 ls0 => exact ⟨l0, ls0, by simp [consHead]⟩

theorem head_mem_splitlines (s l : List Char) (ls : List (List Char))
    (h : splitRaw s = l :: ls) (hl : l ≠ []) : l ∈ splitlines s := by
  unfold splitlines
  rw [h]
  split
  · rename_i hlast
    cases ls with
    | nil =>
      have : l = [] := by simpa using hlast
      exact absurd this hl
    | cons a ls2 => exact List.mem_cons_self _ _
  · exact List.mem_cons_self _ _

theorem pyStrip_nil_all_ws (s : List Char) (h : pyStrip s = []) :
    ∀ c ∈ s, isPySpace c = true := by
  have hr : (lstrip s).reverse.dropWhile isPySpace = [] := by
    have := congrArg List.reverse h
    rwa [pyStrip, rstrip, List.reverse_reverse] at this
  have hall : ∀ c ∈ lstrip s, isPySpace c = true := by
    rw [List.dropWhile_eq_nil_iff] at hr
    intro c hcmem
    exact hr c (List.mem_reverse.mpr hcmem)
  intro c hcmem
  have hsplit : List.takeWhile isPySpace s ++ List.dropWhile isPySpace s = s :=
    List.takeWhile_append_dropWhile isPySpace s
  rw [← hsplit] at hcmem
  rcases List.mem_append.mp hcmem with h1 | h2
  · exact List.mem_takeWhile_imp h1
  · exact hall c h2
example : sanitize_command (("`a`").toList) = ("a").toList := by decide
example :
    sanitize_command (("```bash\npmset -g batt | grep -o \"[0-9]*%\"\n```").toList)
      = ("pmset -g batt | grep -o \"[0-9]*%\"").toList := by decide
example :
    sanitize_command (("`ipconfig getifaddr en0 | pbcopy`").toList)
      = ("ipconfig getifaddr en0 | pbcopy").toList := by decide
example : sanitize_command (("```\n`pwd`\n```").toList) = ("pwd").toList := by decide
example : sanitize_command (("` ```a\nb `").toList) = ("```a\nb").toList := by decide
example : sanitize_command (("```a\nb").toList) = ("b").toList := by decide
example : sanitize_command (("   \n```\n```bash\n \n```   ").toList) = [] := by decide

/-!
## Lemma kit: substring containment and infix transfer
-/

theorem hasSub_iff (pat s : List Char) : hasSub pat s = true ↔ pat <:+: s := by
  induction s with
  | nil =>
    constructor
    · intro h
      have hp : pat = [] := by simpa [hasSub, List.isEmpty_iff] using h
      subst hp
      exact List.infix_rfl
    · intro h
      have hlen : pat.length = 0 := Nat.le_zero.mp (by simpa using h.sublist.length_le)
      have hp : pat = [] := List.length_eq_zero.mp hlen
      subst hp
      rfl
  | cons c rest ih =>
    show (pat.isPrefixOf (c :: rest) || hasSub pat rest) = true ↔ _
    rw [Bool.or_eq_true, ih, List.isPrefixOf_iff_prefix]
    exact (List.infix_cons_iff).symm

theorem keepLine_iff (ln : List Char) :
    keepLine ln = true ↔ ¬ fence <+: pyStrip ln := by
  simp [keepLine]

theorem middle_inf (l : List Char) : middle l <:+: l := by
  have h1 : (l.drop 1).dropLast <+: l.drop 1 := List.dropLast_prefix _
  have h2 : l.drop 1 <:+ l := List.drop_suffix 1 l
  exact h1.isInfix.trans h2.isInfix

theorem stepTick_inf (r : List Char) : stepTick r <:+: r := by
  unfold stepTick
  split
  · exact (pyStrip_inf _).trans (middle_inf r)
  · exact List.infix_rfl

theorem stepTick_not_wrapped (r : List Char) (h : ¬ Wrapped r) : stepTick r = r := by
  unfold stepTick
  rw [if_neg h]

/-- The two shapes of `sanitize_command`, by whether the text contains a
fence delimiter. -/
theorem sanitize_cases (x : List Char) :
    (hasSub fence (pyStrip x) = true ∧
      sanitize_command x =
        stepTick (pyStrip (joinNL ((splitlines (pyStrip x)).filter keepLine)))) ∨
    (hasSub fence (pyStrip x) = false ∧
      sanitize_command x = stepTick (pyStrip x)) := by
  by_cases h : hasSub fence (pyStrip x) = true
  · exact Or.inl ⟨h, by rw [sanitize_command, stepFence, if_pos h]⟩
  · exact Or.inr ⟨Bool.eq_false_iff.mpr h, by rw [sanitize_command, stepFence, if_neg h]⟩

theorem joinNL_onlyNL (ls : List (List Char))
    (h : ∀ l ∈ ls, ∀ c ∈ l, isLineBreak c = false) :
    ∀ c ∈ joinNL ls, isLineBreak c = true → c = '\n' := by
  intro c hc hb
  rcases mem_joinNL ls c hc with ⟨l, hl, hcl⟩ | rfl
  · exact absurd hb (by simp [h l hl c hcl])
  · rfl

/-- If the sanitized output still contains a fence delimiter, it was produced
by the fence-removal branch, so all its line breaks are plain newlines. -/
theorem sanitize_onlyNL (x : List Char)
    (hf : hasSub fence (sanitize_command x) = true) :
    ∀ c ∈ sanitize_command x, isLineBreak c = true → c = '\n' := by
  rcases sanitize_cases x with ⟨h1, heq⟩ | ⟨h1, heq⟩
  · intro c hc hb
    rw [heq] at hc
    have hsub : c ∈ joinNL ((splitlines (pyStrip x)).filter keepLine) := by
      have h2 := stepTick_inf (pyStrip (joinNL ((splitlines (pyStrip x)).filter keepLine)))
      have h3 := pyStrip_inf (joinNL ((splitlines (pyStrip x)).filter keepLine))
      exact (h2.trans h3).sublist.subset hc
    refine joinNL_onlyNL _ ?_ c hsub hb
    intro l hl e he
    exact mem_splitRaw_no_break (pyStrip x) l
      (mem_splitlines_raw _ _ (List.mem_of_mem_filter hl)) e he
  · exfalso
    rw [heq] at hf
    have h2 : fence <:+: stepTick (pyStrip x) := (hasSub_iff _ _).mp hf
    have h3 : fence <:+: pyStrip x := h2.trans (stepTick_inf _)
    rw [(hasSub_iff fence (pyStrip x)).mpr h3] at h1
    exact absurd h1 (by decide)

theorem joinNL_all_ws (ls : List (List Char))
    (h : ∀ l ∈ ls, ∀ c ∈ l, isPySpace c = true) :
    ∀ c ∈ joinNL ls, isPySpace c = true := by
  intro c hc
  rcases mem_joinNL ls c hc with ⟨l, hl, hcl⟩ | rfl
  · exact h l hl c hcl
  · decide

/-!
## Claim theorems
-/

/-- C1: the stop-exactly-once invariant is violated by the code.  With the
server unreachable initially and a SIGINT arriving during the fourth poll
sleep, the invocation has spawned a server process but performs zero
`stop_ollama` calls — the global `server_process` is still `None` in both the
signal handler and the `finally` block, so the spawned process leaks.  With
the SIGINT arriving after `start_ollama` returns, `stop_ollama` is invoked
twice on the same handle (once by the handler, once more by `finally`).  And
on startup failure (no probe ever succeeds) the spawned process is never
stopped either.  The claim requires exactly one stop in every one of these
situations. -/
theorem interrupt_lifecycle_bug :
    ((runMain ⟨false, false, false, fun _ => false, some (.duringPoll 3), true⟩).started = true ∧
     (runMain ⟨false, false, false, fun _ => false, some (.duringPoll 3), true⟩).stops = 0) ∧
    ((runMain ⟨false, false, false, fun _ => true, some .duringInference, true⟩).started = true ∧
     (runMain ⟨false, false, false, fun _ => true, some .duringInference, true⟩).stops = 2) ∧
    ((runMain ⟨false, false, false, fun _ => false, none, true⟩).started = true ∧
     (runMain ⟨false, false, false, fun _ => false, none, true⟩).stops = 0) :=
  ⟨⟨rfl, rfl⟩, ⟨rfl, rfl⟩, ⟨rfl, rfl⟩⟩

/-- C2 counterexample: with a health probe that never reports healthy, the
poll loop of `start_ollama` performs 21 probes before giving up — not the 20
stated by the claim. -/
theorem retry_bound_counterexample :
    start_ollama_poll (fun _ => false) = .failed 21 ∧
    start_ollama_poll (fun _ => false) ≠ .failed 20 :=
  ⟨rfl, by decide⟩

/-- C2 (amended): if no in-loop health probe ever succeeds after the server
process is launched, the poll loop fails after exactly 21 probes — the retry
counter must exceed its bound of 20, with one 0.5-second sleep after each
failed probe (≈10.5 s in total) — the whole invocation aborts with exit
status 1, and the inference call is never performed. -/
theorem startup_failure_aborts (h : Nat → Bool) (hh : ∀ k, h k = false)
    (h0 iok : Bool) :
    start_ollama_poll h = .failed 21 ∧
    (runMain ⟨h0, false, false, h, none, iok⟩).polls = 21 ∧
    (runMain ⟨h0, false, false, h, none, iok⟩).inferenceCalled = false ∧
    (runMain ⟨h0, false, false, h, none, iok⟩).exitCode = 1 := by
  have hfun : h = fun _ => false := funext hh
  subst hfun
  exact ⟨rfl, rfl, rfl, rfl⟩

theorem startup_failure_aborts_witness :
    (∀ k, (fun _ => false : Nat → Bool) k = false) ∧
    start_ollama_poll (fun _ => false) = .failed 21 ∧
    (runMain ⟨true, false, false, fun _ => false, none, true⟩).inferenceCalled = false :=
  ⟨fun _ => rfl,
   (startup_failure_aborts (fun _ => false) (fun _ => rfl) true true).1,
   (startup_failure_aborts (fun _ => false) (fun _ => rfl) true true).2.2.1⟩

/-- C5: when the server is already healthy as the invocation begins (both
initial probes succeed on a healthy server), the invocation has no net side
effect on it: the process reaper is never invoked, no server is started (so
the ownership of the teardown is never acquired — `started` stays false), the
guaranteed teardown performs no stop, and the server's health state at the
end equals its state at the beginning — whatever the poll trace, interruption
point and inference outcome. -/
theorem already_healthy_frame (ph : Nat → Bool) (intr : Option IPt) (iok : Bool) :
    (runMain ⟨true, true, true, ph, intr, iok⟩).cleanupCalled = false ∧
    (runMain ⟨true, true, true, ph, intr, iok⟩).started = false ∧
    (runMain ⟨true, true, true, ph, intr, iok⟩).stops = 0 ∧
    (runMain ⟨true, true, true, ph, intr, iok⟩).finalHealthy = true := by
  rcases intr with _ | pt
  · exact ⟨rfl, rfl, rfl, rfl⟩
  · cases pt <;> exact ⟨rfl, rfl, rfl, rfl⟩

/-- C7: the health probe `is_ollama_running` is total with respect to network
errors — it is a function of the network outcome, so no outcome propagates to
the caller as an exception; connection failure and read timeout both return
`false`, and a completed connection returns `true` regardless of the HTTP
status code. -/
theorem probe_total_on_network_errors :
    (∀ s, is_ollama_running (.success s) = true) ∧
    is_ollama_running .connectionError = false ∧
    is_ollama_running .readTimeout = false ∧
    (∀ o, is_ollama_running o = true ↔ ∃ s, o = .success s) := by
  refine ⟨fun _ => rfl, rfl, rfl, fun o => ?_⟩
  cases o <;> simp [is_ollama_running]

/-- C9: in command mode (with a nonempty extracted command), confirmation
input `""`, `"y"`, `"Y"`, or `"yes"` — case-insensitively — leads to execution
of the extracted command, while `"n"` and any other input whose lower-cased
form is not one of the affirmative answers leads to an abort with no
execution. -/
theorem confirm_gate (content : List Char) (hne : sanitize_command content ≠ []) :
    commandStage content [] = .execute (sanitize_command content) ∧
    commandStage content [Char.ofNat 0x79] = .execute (sanitize_command content) ∧
    commandStage content [Char.ofNat 0x59] = .execute (sanitize_command content) ∧
    commandStage content (("yes").toList) = .execute (sanitize_command content) ∧
    commandStage content (("YES").toList) = .execute (sanitize_command content) ∧
    commandStage content (("n").toList) = .aborted ∧
    (∀ conf, pyLower conf ∉ yesAnswers → commandStage content conf = .aborted) := by
  have hstage : ∀ conf, commandStage content conf =
      if confirmAccepts conf then .execute (sanitize_command content) else .aborted := by
    intro conf
    unfold commandStage
    rw [if_neg hne]
  refine ⟨?_, ?_, ?_, ?_, ?_, ?_, ?_⟩
  · rw [hstage, if_pos (by decide)]
  · rw [hstage, if_pos (by decide)]
  · rw [hstage, if_pos (by decide)]
  · rw [hstage, if_pos (by decide)]
  · rw [hstage, if_pos (by decide)]
  · rw [hstage, if_neg (by decide)]
  · intro conf hmem
    rw [hstage, if_neg ?_]
    intro hacc
    exact hmem (by simpa [confirmAccepts, List.elem_iff] using hacc)

theorem confirm_gate_witness :
    sanitize_command (("ls").toList) ≠ [] ∧
    pyLower (("q").toList) ∉ yesAnswers ∧
    commandStage (("ls").toList) [] = .execute (sanitize_command (("ls").toList)) ∧
    commandStage (("ls").toList) (("q").toList) = .aborted :=
  ⟨by decide, by decide,
   (confirm_gate (("ls").toList) (by decide)).1,
   (confirm_gate (("ls").toList) (by decide)).2.2.2.2.2.2 (("q").toList) (by decide)⟩

/-- C10: the `-a` flag selects answer mode from any position in the argument
list, not only before the query words; exactly the first occurrence of `"-a"`
is removed, so any later literal `"-a"` token stays in the argument list and
ends up in the joined query string. -/
theorem ask_flag_any_position :
    (∀ pre post : List String, ("-a") ∉ pre →
      parse_args (pre ++ ("-a") :: post) = (true, pre ++ post)) ∧
    parse_args [("pls"), ("list"), ("-a"), ("files"), ("-a")]
      = (true, [("pls"), ("list"), ("files"), ("-a")]) ∧
    build_query [("pls"), ("list"), ("files"), ("-a")] = ("list files -a") := by
  refine ⟨?_, by decide, rfl⟩
  intro pre post hpre
  unfold parse_args
  rw [if_pos (List.mem_append.mpr (Or.inr (List.mem_cons_self _ _)))]
  rw [List.erase_append_right _ hpre, List.erase_cons_head]

theorem ask_flag_any_position_witness :
    ("-a") ∉ [("pls"), ("show"), ("x")] ∧
    parse_args ([("pls"), ("show"), ("x")] ++ ("-a") :: [("files")])
      = (true, [("pls"), ("show"), ("x")] ++ [("files")]) :=
  ⟨by decide, ask_flag_any_position.1 [("pls"), ("show"), ("x")] [("files")] (by decide)⟩

/-- C8: if the text remaining after fence-line removal is wrapped in a single
pair of inline-code delimiters — one leading backtick, one trailing backtick
and length greater than 2, i.e. it has the shape backtick ++ inner ++ backtick
with `inner` nonempty — then `sanitize_command` strips exactly that outer pair
and re-trims, preserving everything inside; in particular the spec's
inline-wrapped pipeline example loses its outer backticks and keeps the inner
pipe. -/
theorem tick_unwrap :
    (∀ x inner : List Char,
      stepFence (pyStrip x) = bt :: (inner ++ [bt]) → inner ≠ [] →
      sanitize_command x = pyStrip inner) ∧
    sanitize_command (("`ipconfig getifaddr en0 | pbcopy`").toList)
      = ("ipconfig getifaddr en0 | pbcopy").toList := by
  refine ⟨?_, by decide⟩
  intro x inner hshape hne
  have hw : Wrapped (stepFence (pyStrip x)) := by
    rw [hshape]
    refine ⟨rfl, ?_, ?_⟩
    · rw [getLast?_cons_of_ne _ _ (by simp), List.getLast?_concat]
    · have hpos : 0 < inner.length := List.length_pos.mpr hne
      simp only [List.length_cons, List.length_append, List.length_singleton]
      omega
  show stepTick (stepFence (pyStrip x)) = pyStrip inner
  rw [stepTick, if_pos hw, hshape]
  congr 1
  show ((bt :: (inner ++ [bt])).drop 1).dropLast = inner
  rw [List.drop_one, List.tail_cons, List.dropLast_concat]

theorem tick_unwrap_witness :
    stepFence (pyStrip (("`ab`").toList)) = bt :: ((("ab").toList) ++ [bt]) ∧
    ("ab").toList ≠ [] ∧
    sanitize_command (("`ab`").toList) = pyStrip (("ab").toList) :=
  ⟨by decide, by decide, tick_unwrap.1 (("`ab`").toList) (("ab").toList) (by decide) (by decide)⟩

/-- C4 counterexample: take the raw text consisting of a fence line, a line
holding an inline-wrapped command, and a closing fence line.  The claim
predicts that the single non-delimiter line is preserved unchanged after
fence-line removal and re-trimming, but `sanitize_command` additionally strips
the inline backticks wrapped around it, so the preserved line is altered. -/
theorem fence_preserve_counterexample :
    hasSub fence (pyStrip (("```\n`pwd`\n```").toList)) = true ∧
    (splitlines (pyStrip (("```\n`pwd`\n```").toList))).filter keepLine
      = [("`pwd`").toList] ∧
    sanitize_command (("```\n`pwd`\n```").toList)
      ≠ pyStrip (joinNL
          ((splitlines (pyStrip (("```\n`pwd`\n```").toList))).filter keepLine)) ∧
    sanitize_command (("```\n`pwd`\n```").toList) = ("pwd").toList :=
  ⟨by decide, by decide, by decide, by decide⟩

/-- C4 (amended): for every raw text containing a fence delimiter,
`sanitize_command` drops exactly the lines whose stripped form begins with a
fence delimiter (wherever they occur), preserves every other line in its
original order including internal blank lines, and re-trims the re-joined
text — except that when the re-joined, re-trimmed text is itself wrapped in a
single pair of inline backticks (length greater than 2), that outer pair is
additionally stripped by the inline-code step.  In particular the spec's
fenced example round-trips exactly, and a text with a mid-position delimiter
line keeps its other lines, internal blank line included, in order. -/
theorem fence_removal :
    (∀ x : List Char, hasSub fence (pyStrip x) = true →
      ¬ Wrapped (pyStrip (joinNL ((splitlines (pyStrip x)).filter keepLine))) →
      sanitize_command x = pyStrip (joinNL ((splitlines (pyStrip x)).filter keepLine))) ∧
    sanitize_command (("```bash\npmset -g batt | grep -o \"[0-9]*%\"\n```").toList)
      = ("pmset -g batt | grep -o \"[0-9]*%\"").toList ∧
    sanitize_command (("```bash\necho a\n\necho b\n```\nrest").toList)
      = ("echo a\n\necho b\nrest").toList := by
  refine ⟨?_, by decide, by decide⟩
  intro x hf hw
  rcases sanitize_cases x with ⟨h1, heq⟩ | ⟨h1, heq⟩
  · rw [heq, stepTick_not_wrapped _ hw]
  · rw [hf] at h1
    exact absurd h1 (by decide)

theorem fence_removal_witness :
    hasSub fence (pyStrip (("```\nls -la\n```").toList)) = true ∧
    ¬ Wrapped (pyStrip (joinNL
        ((splitlines (pyStrip (("```\nls -la\n```").toList))).filter keepLine))) ∧
    sanitize_command (("```\nls -la\n```").toList)
      = pyStrip (joinNL
          ((splitlines (pyStrip (("```\nls -la\n```").toList))).filter keepLine)) :=
  ⟨by decide, by decide, fence_removal.1 (("```\nls -la\n```").toList) (by decide) (by decide)⟩

/-- C6: raw model output consisting only of whitespace and code-fence markers
— formalized as: every line of its stripped form either strips to nothing or
begins, once stripped, with a fence delimiter — sanitizes to the empty result,
which the command-mode caller reports as the distinct empty-command outcome
for every possible confirmation input; execution is never reached for it. -/
theorem empty_extraction (x : List Char)
    (h : ∀ ln ∈ splitlines (pyStrip x), pyStrip ln = [] ∨ fence <+: pyStrip ln) :
    sanitize_command x = [] ∧
    ∀ conf, commandStage x conf = .emptyError := by
  have hempty : sanitize_command x = [] := by
    rcases sanitize_cases x with ⟨h1, heq⟩ | ⟨h1, heq⟩
    · have hall : ∀ c ∈ joinNL ((splitlines (pyStrip x)).filter keepLine),
          isPySpace c = true := by
        apply joinNL_all_ws
        intro l hl e he
        have hkeep : keepLine l = true := List.of_mem_filter hl
        have hmem : l ∈ splitlines (pyStrip x) := List.mem_of_mem_filter hl
        rcases h l hmem with hnil | hpref
        · exact pyStrip_nil_all_ws l hnil e he
        · exact absurd hpref ((keepLine_iff l).mp hkeep)
      rw [heq, all_ws_pyStrip_nil _ hall]
      exact stepTick_not_wrapped [] (by decide)
    · have hnil : pyStrip x = [] := by
        cases hps : pyStrip x with
        | nil => rfl
        | cons a t =>
          exfalso
          have ha : isPySpace a = false :=
            stripped_head_not_ws (pyStrip x) (pyStrip_idem x) a (by rw [hps]; rfl)
          have hab : isLineBreak a = false := by
            cases hb : isLineBreak a
            · rfl
            · rw [break_ws a hb] at ha
              exact absurd ha (by decide)
          obtain ⟨l0, ls0, hsp⟩ := splitRaw_head_nonempty a t hab
          have hmem : (a :: l0) ∈ splitlines (pyStrip x) := by
            rw [hps]
            exact head_mem_splitlines (a :: t) (a :: l0) ls0 hsp (by simp)
          rcases h (a :: l0) hmem with hnil2 | hpref
          · have hws := pyStrip_nil_all_ws _ hnil2 a (by simp)
            rw [hws] at ha
            exact absurd ha (by decide)
          · have hinf : fence <:+: pyStrip x := by
              have h2 : fence <:+: pyStrip (a :: l0) := hpref.isInfix
              have h3 : pyStrip (a :: l0) <:+: (a :: l0) := pyStrip_inf _
              have h4 : (a :: l0) <:+: pyStrip x := by
                rw [hps]
                exact mem_splitRaw_inf (a :: t) (a :: l0)
                  (by rw [hsp]; exact List.mem_cons_self _ _)
              exact (h2.trans h3).trans h4
            rw [(hasSub_iff _ _).mpr hinf] at h1
            exact absurd h1 (by decide)
      rw [heq, hnil]
      exact stepTick_not_wrapped [] (by decide)
  refine ⟨hempty, fun conf => ?_⟩
  unfold commandStage
  rw [if_pos hempty]

theorem empty_extraction_witness :
    (∀ ln ∈ splitlines (pyStrip (("  ```\n```bash\n   \n``` ").toList)),
      pyStrip ln = [] ∨ fence <+: pyStrip ln) ∧
    sanitize_command (("  ```\n```bash\n   \n``` ").toList) = [] ∧
    commandStage (("  ```\n```bash\n   \n``` ").toList) (("y").toList) = .emptyError :=
  ⟨by decide,
   (empty_extraction _ (by decide)).1,
   (empty_extraction _ (by decide)).2 (("y").toList)⟩

/-- C3 counterexample: `sanitize_command` is not idempotent on its own range.
On the doubly backtick-wrapped input the first pass leaves a singly wrapped
command that a second pass unwraps again; on the second input, unwrapping the
outer backticks uncovers a line beginning with a fence delimiter that only a
second pass removes. -/
theorem sanitize_not_idempotent :
    (sanitize_command (("``a``").toList) = ("`a`").toList ∧
     sanitize_command (sanitize_command (("``a``").toList)) = ("a").toList ∧
     sanitize_command (sanitize_command (("``a``").toList))
       ≠ sanitize_command (("``a``").toList)) ∧
    (sanitize_command (("` ```a\nb `").toList) = ("```a\nb").toList ∧
     sanitize_command (sanitize_command (("` ```a\nb `").toList)) = ("b").toList ∧
     sanitize_command (sanitize_command (("` ```a\nb `").toList))
       ≠ sanitize_command (("` ```a\nb `").toList)) :=
  ⟨⟨by decide, by decide, by decide⟩, ⟨by decide, by decide, by decide⟩⟩

/-- C3 (amended): `sanitize_command` is idempotent on every input whose output
is not itself wrapped in a single pair of inline backticks (length greater
than 2) and contains no line whose stripped form begins with a fence
delimiter.  (Outputs of those two shapes exist — backtick unwrapping can
expose new delimiters — and are reduced further by a second pass.) -/
theorem sanitize_idempotent_amended (x : List Char)
    (h1 : ¬ Wrapped (sanitize_command x))
    (h2 : ∀ ln ∈ splitlines (sanitize_command x), ¬ fence <+: pyStrip ln) :
    sanitize_command (sanitize_command x) = sanitize_command x := by
  have hys : pyStrip (sanitize_command x) = sanitize_command x := sanitize_strip x
  show stepTick (stepFence (pyStrip (sanitize_command x))) = sanitize_command x
  rw [hys]
  by_cases hf : hasSub fence (sanitize_command x) = true
  · have honly : ∀ c ∈ sanitize_command x, isLineBreak c = true → c = '\n' :=
      sanitize_onlyNL x hf
    have hne : sanitize_command x ≠ [] := by
      intro h0
      rw [h0] at hf
      exact absurd hf (by decide)
    have hlast : (splitRaw (sanitize_command x)).getLast? ≠ some [] := by
      cases hgl : (sanitize_command x).getLast? with
      | none => exact absurd (List.getLast?_eq_none_iff.mp hgl) hne
      | some c =>
        apply splitRaw_getLast_ne (sanitize_command x) c hgl
        have hws := stripped_last_not_ws (sanitize_command x) hys c hgl
        cases hb : isLineBreak c
        · rfl
        · rw [break_ws c hb] at hws
          exact absurd hws (by decide)
    have hsl : splitlines (sanitize_command x) = splitRaw (sanitize_command x) :=
      splitlines_eq_splitRaw _ hlast
    have hfilter : (splitlines (sanitize_command x)).filter keepLine
        = splitlines (sanitize_command x) := by
      apply List.filter_eq_self.mpr
      intro l hl
      exact (keepLine_iff l).mpr (h2 l hl)
    have hjoin : joinNL (splitRaw (sanitize_command x)) = sanitize_command x :=
      joinNL_splitRaw _ honly
    rw [stepFence, if_pos hf, hfilter, hsl, hjoin, hys]
    exact stepTick_not_wrapped _ h1
  · rw [stepFence, if_neg hf]
    exact stepTick_not_wrapped _ h1

theorem sanitize_idempotent_witness :
    ¬ Wrapped (sanitize_command (("echo hi").toList)) ∧
    (∀ ln ∈ splitlines (sanitize_command (("echo hi").toList)),
      ¬ fence <+: pyStrip ln) ∧
    sanitize_command (sanitize_command (("echo hi").toList))
      = sanitize_command (("echo hi").toList) :=
  ⟨by decide, by decide, sanitize_idempotent_amended _ (by decide) (by decide)⟩

end Pls
